import Mathlib

/-!
Verification of the `edit_file` module of the `mcp_server_filesystem`
repository (`src/file_tools/edit_file.py`).

Python strings are modelled as `List Char` (`PyStr`); Python `int` as `Int`
(with `Nat` where the source value is a length or an index proved
non-negative); Python `float` as `ℚ` (the values involved are exact small
rationals, so rational arithmetic is a faithful model of the comparisons the
code performs); a Python function that can raise is modelled with `Option`
or an explicit outcome type carrying the error.

All definitions are executable and structurally recursive so that concrete
runs evaluate by `decide` / `rfl`.
-/

set_option autoImplicit false

abbrev PyStr := List Char

/-- Convert a Lean string literal into the `List Char` model. -/
def str (s : String) : PyStr := s.toList

/-- Python `str.count("\n")`. -/
def countNl (s : PyStr) : Nat := s.count '\n'

/-- Python `text.split("\n")`: splits on every newline; never returns an
empty list. -/
def splitNl : PyStr → List PyStr
  | [] => [[]]
  | c :: rest =>
    match splitNl rest with
    | [] => [[]]
    | l :: ls => if c = '\n' then [] :: l :: ls else (c :: l) :: ls

/-- Python `"\n".join(lines)`. -/
def joinNl : List PyStr → PyStr
  | [] => []
  | [l] => l
  | l :: l2 :: ls => l ++ '\n' :: joinNl (l2 :: ls)

/-- Python whitespace set used by `str.strip()` / `\s`. -/
def isPyWs (c : Char) : Bool :=
  c = ' ' ∨ c = '\t' ∨ c = '\n' ∨ c = '\r' ∨ c = '\x0b' ∨ c = '\x0c'

/-- Python `str.strip()` (no arguments: strips whitespace on both ends). -/
def pyStrip (s : PyStr) : PyStr :=
  ((s.dropWhile isPyWs).reverse.dropWhile isPyWs).reverse

/-- Python `str.lstrip()`. -/
def pyLStrip (s : PyStr) : PyStr := s.dropWhile isPyWs

/-- Python `s.find(pattern)` restricted to its successful positions:
`some n` is the first (smallest) index where `pattern` starts, `none` when
the pattern does not occur. -/
def pyFind (s p : PyStr) : Option Nat :=
  if p.isPrefixOf s then some 0
  else
    match s with
    | [] => none
    | _ :: r => (pyFind r p).map (· + 1)

/-- Python `pattern in s` (substring test). -/
def substrB (p s : PyStr) : Bool := (pyFind s p).isSome

/-- Python `s * k` for `s : str`, `k : int` (empty for `k ≤ 0`). -/
def strRepeat (s : PyStr) (k : Int) : PyStr :=
  (List.replicate k.toNat s).flatten

/-- `normalize_line_endings` (edit_file.py): `text.replace("\r\n", "\n")` —
one left-to-right pass replacing each non-overlapping CRLF by LF.  Note the
source replaces only the two-character sequence; a lone CR is copied
unchanged. -/
def normalize_line_endings : PyStr → PyStr
  | [] => []
  | [c] => [c]
  | c :: d :: rest =>
    if c = '\r' ∧ d = '\n' then '\n' :: normalize_line_endings rest
    else c :: normalize_line_endings (d :: rest)

/-- Collapse runs of spaces/tabs to a single space:
`re.sub(r"[ \t]+", " ", text)`.  The boolean argument records whether the
previous character was part of a space/tab run. -/
def collapseGo : Bool → PyStr → PyStr
  | _, [] => []
  | prev, c :: rest =>
    if c = ' ' ∨ c = '\t' then
      if prev then collapseGo true rest else ' ' :: collapseGo true rest
    else c :: collapseGo false rest

/-- `normalize_whitespace` (edit_file.py): collapse space/tab runs, then
strip every line. -/
def normalize_whitespace (text : PyStr) : PyStr :=
  joinNl ((splitNl (collapseGo false text)).map pyStrip)

/-- `get_line_indentation` (edit_file.py): `re.match(r"^(\s*)", line)`. -/
def get_line_indentation (line : PyStr) : PyStr := line.takeWhile isPyWs

/-- Match of `^( +)[^ ]` on a line: the length of the leading space run,
provided it is non-empty and followed by some non-space character. -/
def spaceRunMatch (l : PyStr) : Option Nat :=
  let r := (l.takeWhile (fun c => c = ' ')).length
  if 0 < r ∧ r < l.length then some r else none

/-- Match of `^(\t+)[^\t]` on a line. -/
def tabRunMatch (l : PyStr) : Option Nat :=
  let r := (l.takeWhile (fun c => c = '\t')).length
  if 0 < r ∧ r < l.length then some r else none

/-- `max(set(spaces), key=spaces.count)`: a value of maximal multiplicity.
CPython iterates the set in hash-table order; we take the first maximal
value in order of first occurrence (no theorem below depends on the
tie-break). -/
def mostCommon (l : List Nat) : Option Nat :=
  l.dedup.foldl
    (fun acc v =>
      match acc with
      | none => some v
      | some b => if l.count b < l.count v then some v else acc)
    none

/-- `detect_indentation` (edit_file.py). -/
def detect_indentation (text : PyStr) : PyStr × Nat :=
  let lines := splitNl text
  let ls := lines.filter (fun l => ¬ (pyStrip l).isEmpty)
  let spaces := ls.filterMap spaceRunMatch
  let tabs := ls.filterMap tabRunMatch
  if tabs.length < spaces.length then
    match mostCommon spaces with
    | some m => (List.replicate m ' ', m)
    | none => (List.replicate 4 ' ', 4)
  else if 0 < tabs.length then ([ '\t' ], 1)
  else (List.replicate 4 ' ', 4)

/-- `is_markdown_bullets` (edit_file.py).  The source also computes a
`has_indented_bullets` flag but never uses it; only the two `any`
conditions decide the result. -/
def is_markdown_bullets (old_text new_text : PyStr) : Bool :=
  let old_lines := splitNl old_text
  let new_lines := splitNl new_text
  if old_lines.isEmpty ∨ new_lines.isEmpty then false
  else
    (old_lines.any fun l => ([ '-', ' ' ]).isPrefixOf (pyLStrip l)) ∧
    (new_lines.any fun l => ([ '-', ' ' ]).isPrefixOf (pyLStrip l))

/-! ### difflib.SequenceMatcher ratio

Model of `difflib.SequenceMatcher(None, a, b).ratio()` for inputs below the
autojunk cutoff (`len(b) < 200`, which holds for every line the fuzzy
matcher compares): `2 * M / (len(a) + len(b))` where `M` is the total size
of the matching blocks found by the recursive longest-matching-block
search.  The longest matching block of a region is, among the blocks of
maximal size, the one starting earliest in `a` and then earliest in `b`. -/

/-- Length of the longest common run starting at the heads of two lists. -/
def commonRun : PyStr → PyStr → Nat
  | a :: as, b :: bs => if a = b then commonRun as bs + 1 else 0
  | _, _ => 0

/-- Length of the matching run starting at `(i, j)` inside the region
`[alo, ahi) × [blo, bhi)`. -/
def runLenAt (a b : PyStr) (ahi bhi i j : Nat) : Nat :=
  commonRun ((a.take ahi).drop i) ((b.take bhi).drop j)

/-- Longest matching block `(i, j, k)` of the region: maximal `k`, ties
broken by smallest `i`, then smallest `j` (the first strict improvement in
lexicographic (i, j) order realises exactly that block). -/
def bestBlock (a b : PyStr) (alo ahi blo bhi : Nat) : Nat × Nat × Nat :=
  (List.range' alo (ahi - alo)).foldl
    (fun acc i =>
      (List.range' blo (bhi - blo)).foldl
        (fun acc j =>
          let k := runLenAt a b ahi bhi i j
          if acc.2.2 < k then (i, j, k) else acc)
        acc)
    (alo, blo, 0)

/-- Total size of all matching blocks (the recursion of
`get_matching_blocks`): find the longest block of the region, then recurse
on the region to its left and to its right.  `fuel` bounds the recursion
depth; `(ahi - alo) + (bhi - blo)` always suffices. -/
def matchTotal : Nat → PyStr → PyStr → Nat → Nat → Nat → Nat → Nat
  | 0, _, _, _, _, _, _ => 0
  | fuel + 1, a, b, alo, ahi, blo, bhi =>
    let ijk := bestBlock a b alo ahi blo bhi
    let i := ijk.1
    let j := ijk.2.1
    let k := ijk.2.2
    if k = 0 then 0
    else
      k + matchTotal fuel a b alo i blo j + matchTotal fuel a b (i + k) ahi (j + k) bhi

/-- `SequenceMatcher(None, a, b).ratio()` as an exact rational. -/
def ratioOf (a b : PyStr) : ℚ :=
  if a.length + b.length = 0 then 1
  else
    (2 * (matchTotal (a.length + b.length) a b 0 a.length 0 b.length) : ℚ) /
      (a.length + b.length)

/-! ### MatchResult and the matchers -/

/-- `MatchResult` (edit_file.py); the purely diagnostic `details` string is
not modelled. -/
structure MatchResult where
  matched : Bool
  confidence : ℚ := 0
  line_index : Int := -1
  line_count : Nat := 0
deriving DecidableEq, Repr

/-- `find_exact_match` (edit_file.py). -/
def find_exact_match (content pattern : PyStr) : MatchResult :=
  match pyFind content pattern with
  | some n =>
      { matched := true
        confidence := 1
        line_index := (countNl (content.take n) : Int)
        line_count := countNl pattern + 1 }
  | none => { matched := false, confidence := 0 }

/-- Outcome of the special-case fast path of `find_fuzzy_match`:
either an uncaught `IndexError`, an immediate hit, or fall-through to the
general window scan. -/
inductive FastOut where
  | err
  | hit (r : MatchResult)
  | miss
deriving DecidableEq, Repr

/-- The fast-path loop of `find_fuzzy_match`, iterating over the given line
indices in order.  Faithful to the Python evaluation order:
`pattern_lines[0] in content_lines[i]` is evaluated first (raising on an
empty pattern list), and `pattern_lines[1]` is evaluated only when that
containment holds (raising on a single-line pattern). -/
def fastGo (cl pl : List PyStr) : List Nat → FastOut
  | [] => .miss
  | i :: rest =>
    if i + pl.length ≤ cl.length then
      match pl.get? 0 with
      | none => .err
      | some p0 =>
        match cl.get? i with
        | none => .err
        | some c0 =>
          if substrB p0 c0 then
            match pl.get? 1 with
            | none => .err
            | some p1 =>
              match cl.get? (i + 1) with
              | none => .err
              | some c1 =>
                if p1 = c1 then
                  .hit { matched := true
                         confidence := 81 / 100
                         line_index := (i : Int)
                         line_count := pl.length }
                else fastGo cl pl rest
          else fastGo cl pl rest
    else fastGo cl pl rest

/-- The fast path of `find_fuzzy_match` over all content line indices. -/
def fastPath (cl pl : List PyStr) : FastOut :=
  fastGo cl pl (List.range cl.length)

/-- The confidences collected for the window starting at line `i`
(normalized slice vs normalized pattern lines, skipping pattern lines that
strip to nothing). -/
def windowConfs (ncl npl : List PyStr) (i : Nat) : List ℚ :=
  let slice := (ncl.drop i).take npl.length
  npl.enum.filterMap fun jp =>
    if (pyStrip jp.2).isEmpty then none
    else (slice.get? jp.1).map fun c => ratioOf c jp.2

/-- The average confidence of the window starting at line `i`, or `none`
when every pattern line is blank (the source skips such windows). -/
def windowConf (ncl npl : List PyStr) (i : Nat) : Option ℚ :=
  let cs := windowConfs ncl npl i
  if cs.isEmpty then none else some (cs.sum / (cs.length : ℚ))

/-- One step of the best-window scan: keep the pair on `none`, update on a
strictly larger average. -/
def scanStep (ncl npl : List PyStr) (bj : ℚ × Int) (i : Nat) : ℚ × Int :=
  match windowConf ncl npl i with
  | none => bj
  | some q => if bj.1 < q then (q, (i : Int)) else bj

/-- The scan over all `n` window positions, starting from
`best_confidence = 0.0`, `best_index = -1`. -/
def scanFold (ncl npl : List PyStr) (n : Nat) : ℚ × Int :=
  (List.range n).foldl (scanStep ncl npl) (0, -1)

/-- `find_fuzzy_match` (edit_file.py).  `none` models an uncaught
`IndexError` raised by the fast path's unguarded `pattern_lines[1]` (or
`pattern_lines[0]`) access. -/
def find_fuzzy_match (cl pl : List PyStr) (threshold : ℚ) : Option MatchResult :=
  let ncl := cl.map normalize_whitespace
  let npl := pl.map normalize_whitespace
  match fastPath cl pl with
  | .err => none
  | .hit r => some r
  | .miss =>
    let n := cl.length + 1 - pl.length
    let bj := scanFold ncl npl n
    if threshold ≤ bj.1 then
      some { matched := true
             confidence := if bj.1 = threshold then threshold + 1 / 100 else bj.1
             line_index := bj.2
             line_count := pl.length }
    else some { matched := false, confidence := bj.1 }

/-! ### Indentation preservation -/

/-- Lookup in an association list modelling a Python dict keyed by line
number, with a default (`dict.get(i, d)`). -/
def lookupD (m : List (Nat × Int)) (i : Nat) (d : Int) : Int :=
  match m.find? (fun p => p.1 = i) with
  | some p => p.2
  | none => d

/-- Insert into an association list modelling a Python dict keyed by
indentation level (`d[k] = v` overwrites). -/
def dictInsert (m : List (Int × PyStr)) (k : Int) (v : PyStr) : List (Int × PyStr) :=
  (m.filter (fun p => ¬ p.1 = k)) ++ [(k, v)]

/-- `d.get?` on the level-keyed dict. -/
def dictGet (m : List (Int × PyStr)) (k : Int) : Option PyStr :=
  (m.find? (fun p => p.1 = k)).map (fun p => p.2)

/-- `max(d.keys()) if d else 1`. -/
def dictKeysMax (m : List (Int × PyStr)) : Int :=
  match m with
  | [] => 1
  | p :: rest => rest.foldl (fun acc q => max acc q.1) p.1

/-- `_analyze_indentation_structure` (edit_file.py): maps the index of each
non-blank line to its indentation level.  `//` is Python floor division
(`Int.fdiv`); the difference to the base indentation can be negative. -/
def analyze_indentation_structure (text_lines : List PyStr) : List (Nat × Int) :=
  let baseLen : Nat :=
    match text_lines.head? with
    | some l => (get_line_indentation l).length
    | none => 0
  text_lines.enum.filterMap fun il =>
    if (pyStrip il.2).isEmpty then none
    else
      let indentLen : Int := ((get_line_indentation il.2).length : Int)
      let level : Int :=
        if 0 < baseLen then Int.fdiv (indentLen - (baseLen : Int)) 4 + 1
        else Int.fdiv indentLen 4 + 1
      some (il.1, level)

/-- The per-line body of `_preserve_markdown_indentation`'s loop. -/
def mdLine (old_lines : List PyStr) (base_indent : PyStr) (i : Nat) (line : PyStr) : PyStr :=
  let stripped := pyLStrip line
  let line_indent := get_line_indentation line
  if i = 0 then base_indent ++ stripped
  else if ([ '-', ' ' ]).isPrefixOf stripped then base_indent ++ line_indent ++ stripped
  else
    match old_lines.get? i with
    | some ol => get_line_indentation ol ++ stripped
    | none => base_indent ++ stripped

/-- The loop of `_preserve_markdown_indentation` over the enumerated new
lines. -/
def mdGo (old_lines : List PyStr) (base_indent : PyStr) : Nat → List PyStr → List PyStr
  | _, [] => []
  | i, line :: rest =>
    mdLine old_lines base_indent i line :: mdGo old_lines base_indent (i + 1) rest

/-- `_preserve_markdown_indentation` (edit_file.py). -/
def preserve_markdown_indentation
    (old_lines new_lines : List PyStr) (base_indent : PyStr) : PyStr :=
  joinNl (mdGo old_lines base_indent 0 new_lines)

/-- The body of the `range(1, len(new_lines))` loop of
`_preserve_python_indentation` for a non-blank line at index `i`. -/
def pyIndentLine (old_text : PyStr) (indentMap : List (Int × PyStr))
    (newStruct : List (Nat × Int)) (base_indent : PyStr) (i : Nat) (line : PyStr) : PyStr :=
  let level := lookupD newStruct i 1
  match dictGet indentMap level with
  | some target => target ++ pyLStrip line
  | none =>
    let maxLevel := dictKeysMax indentMap
    let baseLevelIndent := (dictGet indentMap maxLevel).getD base_indent
    let iu := (detect_indentation old_text).1
    let isz := (detect_indentation old_text).2
    let extraLevels : Int := level - maxLevel
    (baseLevelIndent ++ strRepeat (strRepeat iu (isz : Int)) extraLevels) ++ pyLStrip line

/-- The loop of `_preserve_python_indentation` over new lines `1..`. -/
def pyGo (old_text : PyStr) (indentMap : List (Int × PyStr))
    (newStruct : List (Nat × Int)) (base_indent : PyStr) : Nat → List PyStr → List PyStr
  | _, [] => []
  | i, line :: rest =>
    (if (pyStrip line).isEmpty then []
     else pyIndentLine old_text indentMap newStruct base_indent i line)
      :: pyGo old_text indentMap newStruct base_indent (i + 1) rest

/-- The base indentation of `_preserve_python_indentation`: the
indentation of the first old line. -/
def pyBaseIndent (old_text : PyStr) : PyStr :=
  match (splitNl old_text).head? with
  | some l => get_line_indentation l
  | none => []

/-- The `indent_map` of `_preserve_python_indentation`: levels of the
non-blank old lines mapped to their indentation; when no level was
determined, a default map of levels 1..9 built from the detected
indentation unit. -/
def pyBuildIndentMap (old_text : PyStr) : List (Int × PyStr) :=
  let old_lines := splitNl old_text
  let oldStruct := analyze_indentation_structure old_lines
  let indentMap0 : List (Int × PyStr) :=
    old_lines.enum.foldl
      (fun d il =>
        if (pyStrip il.2).isEmpty then d
        else dictInsert d (lookupD oldStruct il.1 1) (get_line_indentation il.2))
      []
  if indentMap0.isEmpty then
    let iu := (detect_indentation old_text).1
    let isz := (detect_indentation old_text).2
    (List.range' 2 8).foldl
      (fun d (level : Nat) =>
        dictInsert d (level : Int)
          (pyBaseIndent old_text ++
            strRepeat (strRepeat iu (isz : Int)) ((level : Int) - 1)))
      (dictInsert [] 1 (pyBaseIndent old_text))
  else indentMap0

/-- `_preserve_python_indentation` (edit_file.py). -/
def preserve_python_indentation (old_text new_text : PyStr) : PyStr :=
  match splitNl new_text with
  | [] => joinNl []
  | l0 :: rest =>
    let firstLine : PyStr :=
      if (pyStrip l0).isEmpty then []
      else pyBaseIndent old_text ++ pyLStrip l0
    joinNl (firstLine ::
      pyGo old_text (pyBuildIndentMap old_text)
        (analyze_indentation_structure (splitNl new_text))
        (pyBaseIndent old_text) 1 rest)

/-- The estimation of an indentation for a generic new line beyond the old
text (lines 330-352 of edit_file.py); `acc` is `result_lines` so far. -/
def genericEstimate (new_lines : List PyStr) (base_indent iu : PyStr) (isz : Nat)
    (acc : List PyStr) (i : Nat) (line : PyStr) : PyStr :=
  if 0 < i ∧ ¬ (pyStrip ((new_lines.get? (i - 1)).getD [])).isEmpty then
    let prevIndent := get_line_indentation ((new_lines.get? (i - 1)).getD [])
    let currIndent := get_line_indentation line
    if prevIndent.length < currIndent.length then
      get_line_indentation ((acc.get? (acc.length - 1)).getD []) ++ strRepeat iu (isz : Int)
    else if currIndent.length < prevIndent.length then
      match (List.range i).reverse.find?
          (fun j => j < acc.length ∧
            (get_line_indentation ((new_lines.get? j).getD [])).length = currIndent.length) with
      | some j => get_line_indentation ((acc.get? j).getD [])
      | none => base_indent
    else base_indent
  else base_indent

/-- One iteration of the default (generic) loop of `preserve_indentation`:
appends exactly one result line for the new line at index `i`. -/
def genericStep (old_lines new_lines : List PyStr) (indentMap : List (Nat × PyStr))
    (base_indent iu : PyStr) (isz : Nat) (acc : List PyStr) (i : Nat) (line : PyStr) :
    List PyStr :=
  if (pyStrip line).isEmpty then acc ++ [[]]
  else if i = 0 then acc ++ [base_indent ++ pyLStrip line]
  else if i < old_lines.length ∧ ((indentMap.find? (fun p => p.1 = i)).isSome) then
    acc ++ [((indentMap.find? (fun p => p.1 = i)).map (fun p => p.2)).getD []
              ++ pyLStrip line]
  else acc ++ [genericEstimate new_lines base_indent iu isz acc i line ++ pyLStrip line]

/-- The default loop of `preserve_indentation` over the enumerated new
lines. -/
def genericGo (old_lines new_lines : List PyStr) (indentMap : List (Nat × PyStr))
    (base_indent iu : PyStr) (isz : Nat) : List PyStr → Nat → List PyStr → List PyStr
  | acc, _, [] => acc
  | acc, i, line :: rest =>
    genericGo old_lines new_lines indentMap base_indent iu isz
      (genericStep old_lines new_lines indentMap base_indent iu isz acc i line)
      (i + 1) rest

/-- The line-indexed indentation map of the default branch of
`preserve_indentation`. -/
def genericIndentMap (old_text : PyStr) : List (Nat × PyStr) :=
  (splitNl old_text).enum.filterMap fun il =>
    if (pyStrip il.2).isEmpty then none
    else some (il.1, get_line_indentation il.2)

/-- The default branch of `preserve_indentation`. -/
def generic_preserve (old_text new_text : PyStr) : PyStr :=
  joinNl (genericGo (splitNl old_text) (splitNl new_text)
    (genericIndentMap old_text) (pyBaseIndent old_text)
    (detect_indentation old_text).1 (detect_indentation old_text).2
    [] 0 (splitNl new_text))

/-- The Python-code heuristic patterns of `preserve_indentation`. -/
def pythonPatterns : List PyStr :=
  [ str "class ", str "def ", str "if ", str "else:", str "elif ",
    str "try:", str "except", str "for ", str "while " ]

/-- `preserve_indentation` (edit_file.py): dispatch between the markdown,
Python and generic strategies. -/
def preserve_indentation (old_text new_text : PyStr) : PyStr :=
  let old_lines := splitNl old_text
  let new_lines := splitNl new_text
  if old_lines.isEmpty ∨ new_lines.isEmpty then new_text
  else if is_markdown_bullets old_text new_text then
    preserve_markdown_indentation old_lines new_lines
      (match old_lines.head? with
       | some l => get_line_indentation l
       | none => [])
  else if (pythonPatterns.any fun p => substrB p old_text) ∧
          (pythonPatterns.any fun p => substrB p new_text) then
    preserve_python_indentation old_text new_text
  else generic_preserve old_text new_text

/-! ### apply_edits and edit_file -/

/-- `EditOperation` (edit_file.py). -/
structure EditOperation where
  old_text : PyStr
  new_text : PyStr
deriving DecidableEq, Repr

/-- `EditOptions` (edit_file.py).  `normalize_whitespace` is carried but
never read by `apply_edits`. -/
structure EditOptions where
  preserve_indentation : Bool := true
  normalize_whitespace : Bool := true
  partial_match : Bool := true
  match_threshold : ℚ := 8 / 10
deriving DecidableEq, Repr

/-- The default `EditOptions()`. -/
def defaultOptions : EditOptions := {}

/-- One entry of the `match_results` list built by `apply_edits`.  The
Python dicts carry different keys per type: exact and fuzzy records have
`line_index`/`line_count`, a failed record has a `details` string (not
modelled). -/
inductive MatchRecord where
  | exact (edit_index : Nat) (confidence : ℚ) (line_index : Int) (line_count : Nat)
  | fuzzy (edit_index : Nat) (confidence : ℚ) (line_index : Int) (line_count : Nat)
  | failed (edit_index : Nat) (confidence : ℚ)
deriving DecidableEq, Repr

/-- The `match_type` field of a record. -/
def MatchRecord.matchType : MatchRecord → String
  | .exact .. => "exact"
  | .fuzzy .. => "fuzzy"
  | .failed .. => "failed"

/-- Exceptions escaping `apply_edits`: the two `ValueError`s it raises
(carrying the failing edit index and, for the fuzzy case, the best
confidence reported in the message), and an `IndexError` propagating out of
`find_fuzzy_match`. -/
inductive EditError where
  | noFuzzyMatch (edit_index : Nat) (confidence : ℚ)
  | noExactDisabled (edit_index : Nat)
  | indexErr
deriving DecidableEq, Repr

/-- Outcome of `apply_edits`: the returned pair, or a raised exception.
A raised exception carries no record list — the local `match_results` of
`apply_edits` is lost when the exception unwinds. -/
inductive EditOutcome where
  | ok (content : PyStr) (records : List MatchRecord)
  | err (e : EditError)
deriving DecidableEq, Repr

/-- Normalise a Python slice bound to an absolute index
(negative counts from the end, then clamp to `[0, len]`). -/
def pyNorm (len : Nat) (x : Int) : Nat :=
  if x < 0 then ((len : Int) + x).toNat else min x.toNat len

/-- Python `l[a:b]` (step 1). -/
def pySliceGet {α : Type} (l : List α) (a b : Int) : List α :=
  (l.take (pyNorm l.length b)).drop (pyNorm l.length a)

/-- Python `l[a:b] = xs` (step 1): replaces the elements between the
normalised bounds (inserting at `start` when the slice is empty). -/
def pySliceSet {α : Type} (l : List α) (a b : Int) (xs : List α) : List α :=
  let s := pyNorm l.length a
  let e := max s (pyNorm l.length b)
  l.take s ++ xs ++ l.drop e

/-- The loop of `apply_edits` over the edit list.  State: current
normalized content, current content line list, cumulative `line_offset`,
accumulated records, current edit index. -/
def applyEditsGo (opts : EditOptions) :
    List EditOperation → Nat → PyStr → List PyStr → Int → List MatchRecord → EditOutcome
  | [], _, nc, _, _, recs => .ok nc recs
  | e :: rest, i, nc, cls, off, recs =>
    let nOld := normalize_line_endings e.old_text
    let nNew := normalize_line_endings e.new_text
    let ex := find_exact_match nc nOld
    if ex.matched then
      let start := (pyFind nc nOld).getD 0
      let nNew2 := if opts.preserve_indentation then preserve_indentation nOld nNew else nNew
      let nc2 := nc.take start ++ nNew2 ++ nc.drop (start + nOld.length)
      applyEditsGo opts rest (i + 1) nc2 (splitNl nc2) off
        (recs ++ [MatchRecord.exact i 1 ex.line_index ex.line_count])
    else if opts.partial_match then
      let old_lines := splitNl nOld
      match find_fuzzy_match cls old_lines opts.match_threshold with
      | none => .err .indexErr
      | some fm =>
        if fm.matched then
          let lineIndex : Int := fm.line_index + off
          let lineCount := fm.line_count
          let matchedContent := joinNl (pySliceGet cls lineIndex (lineIndex + lineCount))
          let nNew2 :=
            if opts.preserve_indentation then preserve_indentation matchedContent nNew
            else nNew
          let cls2 := pySliceSet cls lineIndex (lineIndex + lineCount) (splitNl nNew2)
          let nc2 := joinNl cls2
          let newLineCount : Int := (countNl nNew2 : Int) + 1
          applyEditsGo opts rest (i + 1) nc2 cls2 (off + (newLineCount - lineCount))
            (recs ++ [MatchRecord.fuzzy i fm.confidence lineIndex lineCount])
        else
          -- the source appends a `failed` record and then raises; the
          -- record list is local and is discarded by the raise
          .err (.noFuzzyMatch i fm.confidence)
    else
      .err (.noExactDisabled i)

/-- `apply_edits` (edit_file.py). -/
def apply_edits (content : PyStr) (edits : List EditOperation)
    (opts : EditOptions := {}) : EditOutcome :=
  let nc := normalize_line_endings content
  applyEditsGo opts edits 0 nc (splitNl nc) 0 []

/-- The observable outcome of `edit_file` (edit_file.py): success flag,
error (if any) and the reported `match_results`.  File IO, diffing and
`dry_run` are outside the model; `content` stands for the text read from
the file.  Note `match_results = []` is bound before the `try` block, and
the raise inside `apply_edits` prevents the re-assignment, so the error
dictionary always reports an empty record list. -/
structure EditFileResult where
  success : Bool
  error : Option EditError
  match_results : List MatchRecord
deriving DecidableEq, Repr

/-- The `apply_edits`-related behaviour of `edit_file` (edit_file.py,
lines 661-705). -/
def edit_file_model (content : PyStr) (edits : List EditOperation)
    (opts : EditOptions := {}) : EditFileResult :=
  match apply_edits content edits opts with
  | .ok _ recs => { success := true, error := none, match_results := recs }
  | .err e => { success := false, error := some e, match_results := [] }

/-! ### Specification-side predicates -/

/-- `pattern` occurs in `s` starting exactly at index `n` (decidable
formulation; the equivalence with the substring decomposition
`s = u ++ pattern ++ v`, `u.length = n` is proved below). -/
abbrev OccursAt (s p : PyStr) (n : Nat) : Prop :=
  n ≤ s.length ∧ p.isPrefixOf (s.drop n) = true

/-- The condition under which the fast path of `find_fuzzy_match` fires at
content line `i`: the whole pattern still fits below `i`, the first pattern
line is contained in content line `i`, and the second pattern line equals
content line `i + 1`. -/
abbrev FastHit (cl pl : List PyStr) (i : Nat) : Prop :=
  i + pl.length ≤ cl.length ∧
  substrB (pl.getD 0 []) (cl.getD i []) = true ∧
  pl.getD 1 [] = cl.getD (i + 1) []

/-- A document given as lines terminated by Windows CRLF line endings. -/
def joinCRLF : List PyStr → PyStr
  | [] => []
  | [l] => l
  | l :: l2 :: ls => l ++ '\r' :: '\n' :: joinCRLF (l2 :: ls)

/-- The best (confidence, index) pair of the general window scan of
`find_fuzzy_match`, as computed by the source loop. -/
def fuzzyBest (cl pl : List PyStr) : ℚ × Int :=
  scanFold (cl.map normalize_whitespace) (pl.map normalize_whitespace)
    (cl.length + 1 - pl.length)

/-- The average confidence the scan computes for the window at line `i`. -/
def fuzzyWindowConf (cl pl : List PyStr) (i : Nat) : Option ℚ :=
  windowConf (cl.map normalize_whitespace) (pl.map normalize_whitespace) i

/-! ## Theorems -/

theorem splitNl_cons_eq {rest m : PyStr} {ms : List PyStr} (c : Char)
    (hs : splitNl rest = m :: ms) :
    splitNl (c :: rest) = if c = '\n' then [] :: m :: ms else (c :: m) :: ms := by
  simp only [splitNl, hs]

theorem splitNl_ne_nil (s : PyStr) : splitNl s ≠ [] := by
  cases s with
  | nil => simp [splitNl]
  | cons c rest =>
    cases hs : splitNl rest with
    | nil => simp [splitNl, hs]
    | cons l ls =>
      rw [splitNl_cons_eq c hs]
      split <;> simp

theorem joinNl_splitNl (s : PyStr) : joinNl (splitNl s) = s := by
  induction s with
  | nil => rfl
  | cons c rest ih =>
    cases hs : splitNl rest with
    | nil => exact absurd hs (splitNl_ne_nil rest)
    | cons l ls =>
      rw [hs] at ih
      rw [splitNl_cons_eq c hs]
      by_cases hc : c = '\n'
      · subst hc
        simpa [joinNl] using ih
      · rw [if_neg hc]
        cases ls with
        | nil =>
          simp only [joinNl] at ih ⊢
          rw [ih]
        | cons m ms =>
          simp only [joinNl] at ih ⊢
          simp [ih]

theorem splitNl_head_append {s m : PyStr} {ms : List PyStr}
    (h : splitNl s = m :: ms) : ∃ t, s = m ++ t := by
  have hj := joinNl_splitNl s
  rw [h] at hj
  cases ms with
  | nil => exact ⟨[], by simpa [joinNl] using hj.symm⟩
  | cons m2 ms2 => exact ⟨'\n' :: joinNl (m2 :: ms2), hj.symm⟩

theorem mem_splitNl_substr {s l : PyStr} (h : l ∈ splitNl s) :
    ∃ u v, s = u ++ l ++ v := by
  induction s generalizing l with
  | nil =>
    simp [splitNl] at h
    exact ⟨[], [], by simp [h]⟩
  | cons c rest ih =>
    cases hs : splitNl rest with
    | nil => exact absurd hs (splitNl_ne_nil rest)
    | cons m ms =>
      rw [splitNl_cons_eq c hs] at h
      by_cases hc : c = '\n'
      · rw [if_pos hc] at h
        rcases List.mem_cons.mp h with h0 | h1
        · exact ⟨[], c :: rest, by simp [h0]⟩
        · have hmem : l ∈ splitNl rest := by rw [hs]; exact h1
          obtain ⟨u, v, huv⟩ := ih hmem
          exact ⟨c :: u, v, by simp [huv]⟩
      · rw [if_neg hc] at h
        rcases List.mem_cons.mp h with h0 | h1
        · obtain ⟨t, ht⟩ := splitNl_head_append hs
          exact ⟨[], t, by simp [h0, ht]⟩
        · have hmem : l ∈ splitNl rest := by
            rw [hs]; exact List.mem_cons_of_mem m h1
          obtain ⟨u, v, huv⟩ := ih hmem
          exact ⟨c :: u, v, by simp [huv]⟩

theorem splitNl_no_nl {s l : PyStr} (h : l ∈ splitNl s) : '\n' ∉ l := by
  induction s generalizing l with
  | nil =>
    simp [splitNl] at h
    simp [h]
  | cons c rest ih =>
    cases hs : splitNl rest with
    | nil => exact absurd hs (splitNl_ne_nil rest)
    | cons m ms =>
      rw [splitNl_cons_eq c hs] at h
      by_cases hc : c = '\n'
      · rw [if_pos hc] at h
        rcases List.mem_cons.mp h with h0 | h1
        · simp [h0]
        · exact ih (hs ▸ h1)
      · rw [if_neg hc] at h
        rcases List.mem_cons.mp h with h0 | h1
        · subst h0
          have hm : '\n' ∉ m := ih (hs ▸ List.mem_cons_self m ms)
          intro hcl
          rcases List.mem_cons.mp hcl with he | hm2
          · exact hc he.symm
          · exact hm hm2
        · exact ih (hs ▸ List.mem_cons_of_mem m h1)

theorem splitNl_of_no_nl {s : PyStr} (h : '\n' ∉ s) : splitNl s = [s] := by
  induction s with
  | nil => rfl
  | cons c rest ih =>
    have hc : c ≠ '\n' := fun e => h (e ▸ List.mem_cons_self c rest)
    have hr : '\n' ∉ rest := fun e => h (List.mem_cons_of_mem c e)
    rw [splitNl_cons_eq c (ih hr), if_neg hc]

theorem splitNl_append_nl {l t : PyStr} (h : '\n' ∉ l) :
    splitNl (l ++ '\n' :: t) = l :: splitNl t := by
  induction l with
  | nil =>
    cases hs : splitNl t with
    | nil => exact absurd hs (splitNl_ne_nil t)
    | cons m ms =>
      rw [List.nil_append, splitNl_cons_eq '\n' hs, if_pos rfl, ← hs]
  | cons c rest ih =>
    have hc : c ≠ '\n' := fun e => h (e ▸ List.mem_cons_self c rest)
    have hr : '\n' ∉ rest := fun e => h (List.mem_cons_of_mem c e)
    rw [List.cons_append, splitNl_cons_eq c (ih hr), if_neg hc]

theorem splitNl_joinNl {ls : List PyStr} (hne : ls ≠ [])
    (h : ∀ l ∈ ls, ('\n' : Char) ∉ l) : splitNl (joinNl ls) = ls := by
  induction ls with
  | nil => exact absurd rfl hne
  | cons l rest ih =>
    cases rest with
    | nil =>
      simp only [joinNl]
      exact splitNl_of_no_nl (h l (List.mem_cons_self l []))
    | cons m ms =>
      simp only [joinNl]
      rw [splitNl_append_nl (h l (List.mem_cons_self l (m :: ms)))]
      rw [ih (by simp) (fun x hx => h x (List.mem_cons_of_mem l hx))]

theorem pyFind_le_length {s p : PyStr} {n : Nat} (h : pyFind s p = some n) :
    n ≤ s.length := by
  induction s generalizing n with
  | nil =>
    simp only [pyFind] at h
    split at h
    · simp at h
      omega
    · simp at h
  | cons c r ih =>
    simp only [pyFind] at h
    split at h
    · simp at h
      omega
    · simp only [Option.map_eq_some'] at h
      obtain ⟨m, hm, hmn⟩ := h
      have := ih hm
      simp only [List.length_cons]
      omega

theorem pyFind_some_spec {s p : PyStr} {n : Nat} (h : pyFind s p = some n) :
    p <+: s.drop n ∧ ∀ m, m < n → ¬ p <+: s.drop m := by
  induction s generalizing n with
  | nil =>
    simp only [pyFind] at h
    split at h
    · rename_i hpre
      simp only [Option.some.injEq] at h
      subst h
      exact ⟨List.isPrefixOf_iff_prefix.mp hpre, by omega⟩
    · simp at h
  | cons c r ih =>
    simp only [pyFind] at h
    split at h
    · rename_i hpre
      simp only [Option.some.injEq] at h
      subst h
      exact ⟨by simpa using List.isPrefixOf_iff_prefix.mp hpre, by omega⟩
    · rename_i hpre
      simp only [Option.map_eq_some'] at h
      obtain ⟨m, hm, hmn⟩ := h
      obtain ⟨h1, h2⟩ := ih hm
      subst hmn
      refine ⟨by simpa using h1, ?_⟩
      intro k hk
      cases k with
      | zero =>
        simp only [List.drop_zero]
        exact fun hcon => hpre (List.isPrefixOf_iff_prefix.mpr hcon)
      | succ k2 =>
        have hlt : k2 < m := by omega
        simpa using h2 k2 hlt

theorem pyFind_none_spec {s p : PyStr} (h : pyFind s p = none) :
    ∀ m, ¬ p <+: s.drop m := by
  induction s with
  | nil =>
    intro m
    simp only [pyFind] at h
    split at h
    · simp at h
    · rename_i hpre
      simp only [List.drop_nil]
      exact fun hcon => hpre (List.isPrefixOf_iff_prefix.mpr hcon)
  | cons c r ih =>
    intro m
    simp only [pyFind] at h
    split at h
    · simp at h
    · rename_i hpre
      simp only [Option.map_eq_none'] at h
      cases m with
      | zero =>
        simp only [List.drop_zero]
        exact fun hcon => hpre (List.isPrefixOf_iff_prefix.mpr hcon)
      | succ m2 => simpa using ih h m2

theorem occursAt_iff_append (s p : PyStr) (n : Nat) :
    OccursAt s p n ↔ ∃ u v, s = u ++ p ++ v ∧ u.length = n := by
  unfold OccursAt
  rw [List.isPrefixOf_iff_prefix]
  constructor
  · rintro ⟨hle, t, ht⟩
    have hs : s = s.take n ++ (p ++ t) := by
      rw [ht, List.take_append_drop]
    refine ⟨s.take n, t, ?_, ?_⟩
    · conv_lhs => rw [hs]
      exact (List.append_assoc _ _ _).symm
    · rw [List.length_take]
      omega
  · rintro ⟨u, v, rfl, hlen⟩
    constructor
    · rw [List.length_append, List.length_append]
      omega
    · rw [← hlen, List.append_assoc, List.drop_left]
      exact ⟨v, rfl⟩

theorem substrB_true_iff (p s : PyStr) :
    substrB p s = true ↔ ∃ u v, s = u ++ p ++ v := by
  unfold substrB
  cases hf : pyFind s p with
  | none =>
    simp only [Option.isSome_none, Bool.false_eq_true, false_iff]
    rintro ⟨u, v, rfl⟩
    exact pyFind_none_spec hf u.length
      (by rw [List.append_assoc, List.drop_left]; exact ⟨v, rfl⟩)
  | some n =>
    simp only [Option.isSome_some, true_iff]
    have h1 := (pyFind_some_spec hf).1
    have hle := pyFind_le_length hf
    obtain ⟨t, ht⟩ := h1
    have hs : s = s.take n ++ (p ++ t) := by
      rw [ht, List.take_append_drop]
    refine ⟨s.take n, t, ?_⟩
    conv_lhs => rw [hs]
    exact (List.append_assoc _ _ _).symm

/-- C5: `find_exact_match` returns the first left-to-right substring
occurrence with confidence 1.0, `line_index` equal to the number of
newlines before the occurrence start and `line_count` equal to the number
of newlines in the pattern plus one; with no occurrence it returns
`matched = false`, confidence 0.0.  The final conjunct checks the concrete
instance from the specification. -/
theorem find_exact_match_spec (content pattern : PyStr) :
    (∀ n, OccursAt content pattern n ↔
        ∃ u v, content = u ++ pattern ++ v ∧ u.length = n) ∧
    (∀ k, OccursAt content pattern k →
        ∃ n, OccursAt content pattern n ∧
          (∀ m, m < n → ¬ OccursAt content pattern m) ∧
          find_exact_match content pattern =
            { matched := true, confidence := 1,
              line_index := (countNl (content.take n) : Int),
              line_count := countNl pattern + 1 }) ∧
    ((∀ k, ¬ OccursAt content pattern k) →
        find_exact_match content pattern = { matched := false, confidence := 0 }) ∧
    find_exact_match (str "line1\nline2\nline3\nline4") (str "line2\nline3") =
      { matched := true, confidence := 1, line_index := 1, line_count := 2 } := by
  refine ⟨fun n => occursAt_iff_append content pattern n, ?_, ?_, by decide⟩
  · intro k hk
    cases hf : pyFind content pattern with
    | none =>
      exact absurd ((List.isPrefixOf_iff_prefix).mp hk.2)
        (pyFind_none_spec hf k)
    | some n =>
      obtain ⟨h1, h2⟩ := pyFind_some_spec hf
      refine ⟨n, ⟨pyFind_le_length hf, (List.isPrefixOf_iff_prefix).mpr h1⟩, ?_, ?_⟩
      · intro m hm hocc
        exact h2 m hm ((List.isPrefixOf_iff_prefix).mp hocc.2)
      · simp [find_exact_match, hf]
  · intro hnone
    cases hf : pyFind content pattern with
    | none => simp [find_exact_match, hf]
    | some n =>
      obtain ⟨h1, _⟩ := pyFind_some_spec hf
      exact absurd ⟨pyFind_le_length hf, (List.isPrefixOf_iff_prefix).mpr h1⟩
        (hnone n)

/-- Witness for C5: the first occurrence of `"line2\nline3"` in
`"line1\nline2\nline3\nline4"` starts at character 6 and the matcher
reports it. -/
theorem find_exact_match_spec_witness :
    OccursAt (str "line1\nline2\nline3\nline4") (str "line2\nline3") 6 ∧
    ∃ n, OccursAt (str "line1\nline2\nline3\nline4") (str "line2\nline3") n ∧
      (∀ m, m < n →
        ¬ OccursAt (str "line1\nline2\nline3\nline4") (str "line2\nline3") m) ∧
      find_exact_match (str "line1\nline2\nline3\nline4") (str "line2\nline3") =
        { matched := true, confidence := 1,
          line_index := (countNl ((str "line1\nline2\nline3\nline4").take n) : Int),
          line_count := countNl (str "line2\nline3") + 1 } :=
  ⟨by decide, (find_exact_match_spec _ _).2.1 6 (by decide)⟩

theorem get?_eq_some_getD {α : Type} (l : List α) (n : Nat) (d : α)
    (h : n < l.length) : l.get? n = some (l.getD n d) := by
  rw [List.getD_eq_get?]
  cases hq : l.get? n with
  | none => exact absurd (List.get?_eq_none.mp hq) (by omega)
  | some a => rfl

theorem fastGo_step_no_hit (cl pl : List PyStr) (h2 : 2 ≤ pl.length)
    (i : Nat) (rest : List Nat) (hi : ¬ FastHit cl pl i) :
    fastGo cl pl (i :: rest) = fastGo cl pl rest := by
  by_cases hg : i + pl.length ≤ cl.length
  · have hp0 := get?_eq_some_getD pl 0 [] (by omega)
    have hp1 := get?_eq_some_getD pl 1 [] (by omega)
    have hc0 := get?_eq_some_getD cl i [] (by omega)
    have hc1 := get?_eq_some_getD cl (i + 1) [] (by omega)
    by_cases hsub : substrB (pl.getD 0 []) (cl.getD i []) = true
    · have heq : ¬ pl.getD 1 [] = cl.getD (i + 1) [] := by
        intro heq
        exact hi ⟨hg, hsub, heq⟩
      simp only [fastGo, if_pos hg, hp0, hc0, hsub, if_true, hp1, hc1, if_neg heq]
    · simp only [fastGo, if_pos hg, hp0, hc0]
      rw [if_neg hsub]
  · simp only [fastGo, if_neg hg]

theorem fastGo_miss (cl pl : List PyStr) (h2 : 2 ≤ pl.length) (idxs : List Nat)
    (h : ∀ i ∈ idxs, ¬ FastHit cl pl i) : fastGo cl pl idxs = .miss := by
  induction idxs with
  | nil => rfl
  | cons i rest ih =>
    rw [fastGo_step_no_hit cl pl h2 i rest (h i (List.mem_cons_self i rest))]
    exact ih (fun j hj => h j (List.mem_cons_of_mem i hj))

theorem fastGo_hit_head (cl pl : List PyStr) (h2 : 2 ≤ pl.length)
    (i : Nat) (rest : List Nat) (hi : FastHit cl pl i) :
    fastGo cl pl (i :: rest) =
      .hit { matched := true, confidence := 81 / 100,
             line_index := (i : Int), line_count := pl.length } := by
  obtain ⟨hg, hsub, heq⟩ := hi
  have hp0 := get?_eq_some_getD pl 0 [] (by omega)
  have hp1 := get?_eq_some_getD pl 1 [] (by omega)
  have hc0 := get?_eq_some_getD cl i [] (by omega)
  have hc1 := get?_eq_some_getD cl (i + 1) [] (by omega)
  simp only [fastGo, if_pos hg, hp0, hc0, hsub, if_true, hp1, hc1, if_pos heq]

theorem fastGo_first_hit (cl pl : List PyStr) (h2 : 2 ≤ pl.length)
    (l : List Nat) (i : Nat) (r : List Nat)
    (hl : ∀ j ∈ l, ¬ FastHit cl pl j) (hi : FastHit cl pl i) :
    fastGo cl pl (l ++ i :: r) =
      .hit { matched := true, confidence := 81 / 100,
             line_index := (i : Int), line_count := pl.length } := by
  induction l with
  | nil => exact fastGo_hit_head cl pl h2 i r hi
  | cons j l2 ih =>
    rw [List.cons_append,
      fastGo_step_no_hit cl pl h2 j _ (hl j (List.mem_cons_self j l2))]
    exact ih (fun x hx => hl x (List.mem_cons_of_mem j hx))

/-- C6: when the pattern has at least two lines and some position lets the
fast path fire (pattern fits, first pattern line contained in the content
line, second pattern line equal to the next content line),
`find_fuzzy_match` returns the fast-path result: matched with confidence
exactly 0.81, `line_index` the smallest such position, `line_count` the
pattern length — regardless of the threshold and without consulting the
window scan. -/
theorem find_fuzzy_match_fast_path (cl pl : List PyStr) (t : ℚ)
    (h2 : 2 ≤ pl.length) (hex : ∃ i, FastHit cl pl i) :
    ∃ i, FastHit cl pl i ∧ (∀ j, j < i → ¬ FastHit cl pl j) ∧
      find_fuzzy_match cl pl t =
        some { matched := true, confidence := 81 / 100,
               line_index := (i : Int), line_count := pl.length } := by
  have hspec := Nat.find_spec hex
  have hlt : Nat.find hex < cl.length := by
    have := hspec.1
    omega
  have hdec : List.range cl.length =
      List.range (Nat.find hex) ++ Nat.find hex ::
        List.range' (Nat.find hex + 1) (cl.length - Nat.find hex - 1) := by
    rw [List.range_eq_range', List.range_eq_range']
    have h1 : List.range' 0 (Nat.find hex) ++
        List.range' (Nat.find hex) (cl.length - Nat.find hex) =
        List.range' 0 cl.length := by
      have := List.range'_append 0 (Nat.find hex) (cl.length - Nat.find hex) 1
      simp only [Nat.one_mul, Nat.zero_add] at this
      rw [this]
      congr 1
      omega
    rw [← h1]
    congr 1
    have hrest : cl.length - Nat.find hex = (cl.length - Nat.find hex - 1) + 1 := by
      omega
    rw [hrest, List.range'_succ]
    simp
  have hp : fastPath cl pl =
      .hit { matched := true, confidence := 81 / 100,
             line_index := ((Nat.find hex : Nat) : Int), line_count := pl.length } := by
    unfold fastPath
    rw [hdec]
    exact fastGo_first_hit cl pl h2 _ _ _
      (fun j hj => Nat.find_min hex (List.mem_range.mp hj)) hspec
  exact ⟨Nat.find hex, hspec, fun j hj => Nat.find_min hex hj,
    by simp only [find_fuzzy_match, hp]⟩

/-- Witness for C6 at a concrete instance: pattern `["cd", "ef"]` against
content `["ab cd", "ef"]` fires the fast path at line 0. -/
theorem find_fuzzy_match_fast_path_witness :
    (2 ≤ ([str "cd", str "ef"] : List PyStr).length) ∧
    (∃ i, FastHit [str "ab cd", str "ef"] [str "cd", str "ef"] i) ∧
    ∃ i, FastHit [str "ab cd", str "ef"] [str "cd", str "ef"] i ∧
      (∀ j, j < i → ¬ FastHit [str "ab cd", str "ef"] [str "cd", str "ef"] j) ∧
      find_fuzzy_match [str "ab cd", str "ef"] [str "cd", str "ef"] (8 / 10) =
        some { matched := true, confidence := 81 / 100,
               line_index := (i : Int),
               line_count := ([str "cd", str "ef"] : List PyStr).length } :=
  ⟨by decide, ⟨0, by decide⟩,
    find_fuzzy_match_fast_path [str "ab cd", str "ef"] [str "cd", str "ef"]
      (8 / 10) (by decide) ⟨0, by decide⟩⟩

theorem fastGo_single_miss (cl : List PyStr) (p : PyStr)
    (h : ∀ l ∈ cl, substrB p l = false) (idxs : List Nat) :
    fastGo cl [p] idxs = .miss := by
  induction idxs with
  | nil => rfl
  | cons i rest ih =>
    by_cases hg : i + ([p] : List PyStr).length ≤ cl.length
    · have hci : i < cl.length := by
        simp only [List.length_singleton] at hg
        omega
      have hc0 := get?_eq_some_getD cl i [] hci
      have hmem : cl.getD i [] ∈ cl := List.get?_mem hc0
      have hsub : substrB p (cl.getD i []) = false := h _ hmem
      simp only [fastGo, if_pos hg, List.get?_cons_zero, hc0, hsub,
        Bool.false_eq_true, if_false]
      exact ih
    · simp only [fastGo, if_neg hg]
      exact ih

/-- C10: the fast path of `find_fuzzy_match` reads `pattern_lines[1]`
without a length guard, but for the calls `apply_edits` makes — on the
line split of the current content, after `find_exact_match` failed on the
same content — a single-line pattern can never satisfy the containment
test (containment in one content line would give a substring occurrence in
the whole content), so the unguarded access is unreachable and no
`IndexError` (modelled by `none`) is raised. -/
theorem find_fuzzy_match_single_line_safe (content p : PyStr) (t : ℚ)
    (hnl : ('\n' : Char) ∉ p)
    (hex : (find_exact_match content p).matched = false) :
    (find_fuzzy_match (splitNl content) (splitNl p) t).isSome = true := by
  have hfind : pyFind content p = none := by
    cases hf : pyFind content p with
    | none => rfl
    | some n =>
      rw [find_exact_match, hf] at hex
      simp at hex
  have hnosub : ∀ l ∈ splitNl content, substrB p l = false := by
    intro l hl
    cases hsb : substrB p l with
    | false => rfl
    | true =>
      obtain ⟨u1, v1, hleq⟩ := (substrB_true_iff p l).mp hsb
      obtain ⟨u2, v2, hc⟩ := mem_splitNl_substr hl
      have hcsub : substrB p content = true := by
        refine (substrB_true_iff p content).mpr ⟨u2 ++ u1, v1 ++ v2, ?_⟩
        rw [hc, hleq]
        simp [List.append_assoc]
      unfold substrB at hcsub
      rw [hfind] at hcsub
      simp at hcsub
  rw [splitNl_of_no_nl hnl]
  have hmiss : fastPath (splitNl content) [p] = .miss :=
    fastGo_single_miss _ p hnosub _
  simp only [find_fuzzy_match, hmiss]
  split <;> simp

/-- Witness for C10: pattern `"a"`, content `"x\ny"`, threshold 0.8. -/
theorem find_fuzzy_match_single_line_safe_witness :
    (('\n' : Char) ∉ str "a") ∧
    (find_exact_match (str "x\ny") (str "a")).matched = false ∧
    (find_fuzzy_match (splitNl (str "x\ny")) (splitNl (str "a")) (8 / 10)).isSome
      = true :=
  ⟨by decide, by decide,
    find_fuzzy_match_single_line_safe (str "x\ny") (str "a") (8 / 10)
      (by decide) (by decide)⟩

theorem scanFold_spec (ncl npl : List PyStr) (n : Nat) :
    0 ≤ (scanFold ncl npl n).1 ∧
    (∀ i, i < n → ∀ q, windowConf ncl npl i = some q →
        q ≤ (scanFold ncl npl n).1) ∧
    (((scanFold ncl npl n).1 = 0 ∧ (scanFold ncl npl n).2 = -1) ∨
      (∃ i, i < n ∧ (scanFold ncl npl n).2 = (i : Int) ∧
        windowConf ncl npl i = some (scanFold ncl npl n).1 ∧
        0 < (scanFold ncl npl n).1 ∧
        ∀ j, j < i → ∀ q, windowConf ncl npl j = some q →
          q < (scanFold ncl npl n).1)) := by
  induction n with
  | zero =>
    refine ⟨le_refl 0, ?_, Or.inl ⟨rfl, rfl⟩⟩
    intro i hi
    omega
  | succ m ih =>
    have hstep : scanFold ncl npl (m + 1) =
        scanStep ncl npl (scanFold ncl npl m) m := by
      unfold scanFold
      rw [List.range_succ, List.foldl_append, List.foldl_cons, List.foldl_nil]
    obtain ⟨ih0, ih1, ih2⟩ := ih
    cases hw : windowConf ncl npl m with
    | none =>
      have heq : scanFold ncl npl (m + 1) = scanFold ncl npl m := by
        rw [hstep]
        unfold scanStep
        rw [hw]
      rw [heq]
      refine ⟨ih0, ?_, ?_⟩
      · intro i hi q hq
        rcases Nat.lt_succ_iff_lt_or_eq.mp hi with h | h
        · exact ih1 i h q hq
        · subst h
          rw [hw] at hq
          exact absurd hq (by simp)
      · rcases ih2 with h | ⟨i, hi, rest⟩
        · exact Or.inl h
        · exact Or.inr ⟨i, Nat.lt_succ_of_lt hi, rest⟩
    | some q =>
      by_cases hlt : (scanFold ncl npl m).1 < q
      · have heq : scanFold ncl npl (m + 1) = (q, (m : Int)) := by
          rw [hstep]
          unfold scanStep
          rw [hw]
          simp only [if_pos hlt]
        rw [heq]
        refine ⟨le_trans ih0 (le_of_lt hlt), ?_, ?_⟩
        · intro i hi q2 hq2
          rcases Nat.lt_succ_iff_lt_or_eq.mp hi with h | h
          · exact le_trans (ih1 i h q2 hq2) (le_of_lt hlt)
          · subst h
            rw [hw] at hq2
            obtain rfl : q = q2 := by injection hq2
            exact le_refl _
        · exact Or.inr ⟨m, Nat.lt_succ_self m, rfl, hw,
            lt_of_le_of_lt ih0 hlt,
            fun j hj q2 hq2 => lt_of_le_of_lt (ih1 j hj q2 hq2) hlt⟩
      · have heq : scanFold ncl npl (m + 1) = scanFold ncl npl m := by
          rw [hstep]
          unfold scanStep
          rw [hw]
          simp only [if_neg hlt]
        rw [heq]
        refine ⟨ih0, ?_, ?_⟩
        · intro i hi q2 hq2
          rcases Nat.lt_succ_iff_lt_or_eq.mp hi with h | h
          · exact ih1 i h q2 hq2
          · subst h
            rw [hw] at hq2
            obtain rfl : q = q2 := by injection hq2
            exact le_of_not_lt hlt
        · rcases ih2 with h | ⟨i, hi, rest⟩
          · exact Or.inl h
          · exact Or.inr ⟨i, Nat.lt_succ_of_lt hi, rest⟩

/-- C1: on the general scan (fast path silent, positive threshold),
`find_fuzzy_match` computes the maximal average per-line similarity over
all sliding windows; when some window reaches the threshold it reports the
leftmost window attaining the maximum with `matched = true` and confidence
equal to the best value — bumped by 0.01 when it equals the threshold
exactly; otherwise it reports `matched = false` with confidence the best
value observed. -/
theorem find_fuzzy_match_scan_spec (cl pl : List PyStr) (t : ℚ)
    (hmiss : fastPath cl pl = FastOut.miss) (ht : 0 < t) :
    (∀ i, i < cl.length + 1 - pl.length → ∀ q,
        fuzzyWindowConf cl pl i = some q → q ≤ (fuzzyBest cl pl).1) ∧
    (t ≤ (fuzzyBest cl pl).1 →
      ∃ i, i < cl.length + 1 - pl.length ∧
        fuzzyWindowConf cl pl i = some (fuzzyBest cl pl).1 ∧
        (∀ j, j < i → ∀ q, fuzzyWindowConf cl pl j = some q →
          q < (fuzzyBest cl pl).1) ∧
        find_fuzzy_match cl pl t =
          some { matched := true,
                 confidence :=
                   if (fuzzyBest cl pl).1 = t then t + 1 / 100
                   else (fuzzyBest cl pl).1,
                 line_index := (i : Int), line_count := pl.length }) ∧
    ((fuzzyBest cl pl).1 < t →
      find_fuzzy_match cl pl t =
        some { matched := false, confidence := (fuzzyBest cl pl).1 }) := by
  have hff : find_fuzzy_match cl pl t =
      (if t ≤ (fuzzyBest cl pl).1 then
        some { matched := true,
               confidence :=
                 if (fuzzyBest cl pl).1 = t then t + 1 / 100
                 else (fuzzyBest cl pl).1,
               line_index := (fuzzyBest cl pl).2, line_count := pl.length }
      else some { matched := false, confidence := (fuzzyBest cl pl).1 }) := by
    simp only [find_fuzzy_match, hmiss, fuzzyBest]
  obtain ⟨h0, h1, h2⟩ := scanFold_spec (cl.map normalize_whitespace)
    (pl.map normalize_whitespace) (cl.length + 1 - pl.length)
  refine ⟨fun i hi q hq => h1 i hi q hq, ?_, ?_⟩
  · intro hth
    have hpos : 0 < (fuzzyBest cl pl).1 := lt_of_lt_of_le ht hth
    rcases h2 with ⟨hb0, _⟩ | ⟨i, hi, hji, hwi, _, hstrict⟩
    · exact absurd hb0 (by
        simp only [fuzzyBest] at hpos
        exact ne_of_gt hpos)
    · refine ⟨i, hi, hwi, fun j hj q hq => hstrict j hj q hq, ?_⟩
      rw [hff, if_pos hth]
      simp only [fuzzyBest] at hji ⊢
      rw [hji]
  · intro hth
    rw [hff, if_neg (not_le.mpr hth)]

/-- Witness for C1: content `["ax", "by"]`, pattern `["ax", "bz"]`,
threshold 0.8; the fast path stays silent, the single window has average
similarity 3/4 < 0.8, so the scan reports `matched = false` with the best
observed confidence. -/
theorem find_fuzzy_match_scan_spec_witness :
    fastPath [str "ax", str "by"] [str "ax", str "bz"] = FastOut.miss ∧
    (0 : ℚ) < 8 / 10 ∧
    find_fuzzy_match [str "ax", str "by"] [str "ax", str "bz"] (8 / 10) =
      some { matched := false,
             confidence := (fuzzyBest [str "ax", str "by"] [str "ax", str "bz"]).1 } :=
  ⟨by decide, by norm_num,
    (find_fuzzy_match_scan_spec [str "ax", str "by"] [str "ax", str "bz"] (8 / 10)
      (by decide) (by norm_num)).2.2 (by with_unfolding_all decide)⟩

theorem normalize_cons_of_ne_cr {c : Char} (hc : c ≠ '\r') (xs : PyStr) :
    normalize_line_endings (c :: xs) = c :: normalize_line_endings xs := by
  cases xs with
  | nil => rfl
  | cons d rest =>
    have hcd : ¬ (c = '\r' ∧ d = '\n') := fun h => hc h.1
    simp only [normalize_line_endings, if_neg hcd]

theorem normalize_crlf_cons (rest : PyStr) :
    normalize_line_endings ('\r' :: '\n' :: rest) =
      '\n' :: normalize_line_endings rest := by
  simp [normalize_line_endings]

theorem normalize_append_of_no_cr {l : PyStr} (h : ('\r' : Char) ∉ l)
    (rest : PyStr) :
    normalize_line_endings (l ++ rest) = l ++ normalize_line_endings rest := by
  induction l with
  | nil => rfl
  | cons c l2 ih =>
    have hc : c ≠ '\r' := fun e => h (e ▸ List.mem_cons_self c l2)
    have hl2 : ('\r' : Char) ∉ l2 := fun e => h (List.mem_cons_of_mem c e)
    simp only [List.cons_append]
    rw [normalize_cons_of_ne_cr hc, ih hl2]

/-- C9 (amended): `normalize_line_endings` converts every CRLF pair to LF
in one left-to-right pass, so a CRLF-terminated document becomes the
LF-terminated document; lone CR characters are not converted (see the
counterexample). -/
theorem normalize_line_endings_crlf (ls : List PyStr)
    (h : ∀ l ∈ ls, ('\r' : Char) ∉ l) :
    normalize_line_endings (joinCRLF ls) = joinNl ls := by
  induction ls with
  | nil => rfl
  | cons l rest ih =>
    cases rest with
    | nil =>
      simp only [joinCRLF, joinNl]
      have hthis := normalize_append_of_no_cr (h l (List.mem_cons_self l [])) []
      have h0 : normalize_line_endings ([] : PyStr) = [] := rfl
      rw [List.append_nil, h0, List.append_nil] at hthis
      exact hthis
    | cons m ms =>
      simp only [joinCRLF, joinNl]
      rw [normalize_append_of_no_cr (h l (List.mem_cons_self l (m :: ms))),
        normalize_crlf_cons,
        ih (fun x hx => h x (List.mem_cons_of_mem l hx))]

/-- Counterexample for C9: a lone CR is not converted, so the text used
for matching can still contain carriage returns, contradicting the claim
that CRLF sequences and lone CR characters alike are canonicalised. -/
theorem normalize_line_endings_lone_cr_cex :
    normalize_line_endings (str "a\rb") = str "a\rb" ∧
    ('\r' : Char) ∈ normalize_line_endings (str "a\rb") := by
  constructor <;> decide

/-- Witness for the amended C9 on a concrete CRLF document. -/
theorem normalize_line_endings_crlf_witness :
    (∀ l ∈ ([str "a", str "b"] : List PyStr), ('\r' : Char) ∉ l) ∧
    normalize_line_endings (joinCRLF [str "a", str "b"]) =
      joinNl [str "a", str "b"] :=
  ⟨by decide, normalize_line_endings_crlf [str "a", str "b"] (by decide)⟩

theorem applyEditsGo_err_append (opts : EditOptions)
    (edits extra : List EditOperation) :
    ∀ (i : Nat) (nc : PyStr) (cls : List PyStr) (off : Int)
      (recs : List MatchRecord) (e : EditError),
      applyEditsGo opts edits i nc cls off recs = .err e →
      applyEditsGo opts (edits ++ extra) i nc cls off recs = .err e := by
  induction edits with
  | nil =>
    intro i nc cls off recs e h
    simp [applyEditsGo] at h
  | cons ed rest ih =>
    intro i nc cls off recs e h
    rw [List.cons_append]
    simp only [applyEditsGo] at h ⊢
    by_cases hm : (find_exact_match nc (normalize_line_endings ed.old_text)).matched
      = true
    · rw [if_pos hm] at h ⊢
      exact ih _ _ _ _ _ _ h
    · rw [if_neg hm] at h ⊢
      by_cases hpm : opts.partial_match = true
      · rw [if_pos hpm] at h ⊢
        cases hfz : find_fuzzy_match cls (splitNl (normalize_line_endings ed.old_text))
            opts.match_threshold with
        | none =>
          simp only [hfz] at h
          exact h
        | some fm =>
          simp only [hfz] at h
          by_cases hfm : fm.matched = true
          · rw [if_pos hfm] at h
            simp only [hfm]
            exact ih _ _ _ _ _ _ h
          · rw [if_neg hfm] at h
            simp only [hfm]
            exact h
      · rw [if_neg hpm] at h ⊢
        exact h

/-- C2 (amended): when some edit fails to match, `apply_edits` raises and
`edit_file` reports `success = false` with the raised error — appending
further edits after the failing one cannot change the outcome (no later
edit is attempted) — but the reported `match_records` list is empty: the
records accumulated inside `apply_edits` (including the failing one) are
lost when the exception unwinds, because `match_results` is bound to `[]`
before the `try` and the raise prevents its re-assignment. -/
theorem edit_file_failure_empty_records (content : PyStr)
    (edits extra : List EditOperation) (opts : EditOptions) (e : EditError)
    (h : apply_edits content edits opts = .err e) :
    apply_edits content (edits ++ extra) opts = .err e ∧
    edit_file_model content edits opts =
      { success := false, error := some e, match_results := [] } := by
  constructor
  · unfold apply_edits at h ⊢
    exact applyEditsGo_err_append opts edits extra _ _ _ _ _ _ h
  · unfold edit_file_model
    rw [h]

/-- Counterexample for C2: with content `"x"` and the single failing edit
`("a", "b")`, `edit_file` reports `success = false` but `match_results` is
the empty list — the failing record with `match_type "failed"` is not in
it, contrary to the claim. -/
theorem edit_file_failure_records_cex :
    edit_file_model (str "x") [⟨str "a", str "b"⟩] defaultOptions =
      { success := false, error := some (.noFuzzyMatch 0 0),
        match_results := [] } ∧
    (edit_file_model (str "x") [⟨str "a", str "b"⟩] defaultOptions).match_results
      = [] := by
  constructor <;> with_unfolding_all decide

/-- Witness for the amended C2. -/
theorem edit_file_failure_empty_records_witness :
    apply_edits (str "x") [⟨str "a", str "b"⟩] defaultOptions =
      .err (.noFuzzyMatch 0 0) ∧
    apply_edits (str "x") ([⟨str "a", str "b"⟩] ++ [⟨str "c", str "d"⟩])
      defaultOptions = .err (.noFuzzyMatch 0 0) ∧
    edit_file_model (str "x") [⟨str "a", str "b"⟩] defaultOptions =
      { success := false, error := some (.noFuzzyMatch 0 0),
        match_results := [] } :=
  ⟨by with_unfolding_all decide,
    (edit_file_failure_empty_records (str "x") [⟨str "a", str "b"⟩]
      [⟨str "c", str "d"⟩] defaultOptions (.noFuzzyMatch 0 0)
      (by with_unfolding_all decide)).1,
    (edit_file_failure_empty_records (str "x") [⟨str "a", str "b"⟩]
      [⟨str "c", str "d"⟩] defaultOptions (.noFuzzyMatch 0 0)
      (by with_unfolding_all decide)).2⟩

theorem applyEditsGo_ok_records (opts : EditOptions)
    (edits : List EditOperation) :
    ∀ (i : Nat) (nc : PyStr) (cls : List PyStr) (off : Int)
      (recs : List MatchRecord) (c : PyStr) (out : List MatchRecord),
      applyEditsGo opts edits i nc cls off recs = .ok c out →
      (∀ r ∈ recs, r.matchType = "exact" ∨ r.matchType = "fuzzy") →
      ∀ r ∈ out, r.matchType = "exact" ∨ r.matchType = "fuzzy" := by
  induction edits with
  | nil =>
    intro i nc cls off recs c out h hrecs
    simp only [applyEditsGo, EditOutcome.ok.injEq] at h
    exact h.2 ▸ hrecs
  | cons ed rest ih =>
    intro i nc cls off recs c out h hrecs
    simp only [applyEditsGo] at h
    by_cases hm : (find_exact_match nc (normalize_line_endings ed.old_text)).matched
      = true
    · rw [if_pos hm] at h
      refine ih _ _ _ _ _ _ _ h ?_
      intro r hr
      rcases List.mem_append.mp hr with h1 | h2
      · exact hrecs r h1
      · rw [List.mem_singleton.mp h2]
        exact Or.inl rfl
    · rw [if_neg hm] at h
      by_cases hpm : opts.partial_match = true
      · rw [if_pos hpm] at h
        cases hfz : find_fuzzy_match cls (splitNl (normalize_line_endings ed.old_text))
            opts.match_threshold with
        | none =>
          simp only [hfz] at h
          exact absurd h (by simp)
        | some fm =>
          simp only [hfz] at h
          by_cases hfm : fm.matched = true
          · rw [if_pos hfm] at h
            refine ih _ _ _ _ _ _ _ h ?_
            intro r hr
            rcases List.mem_append.mp hr with h1 | h2
            · exact hrecs r h1
            · rw [List.mem_singleton.mp h2]
              exact Or.inr rfl
          · rw [if_neg hfm] at h
            exact absurd h (by simp)
      · rw [if_neg hpm] at h
        exact absurd h (by simp)

/-- C3 (amended): `apply_edits` has no skip logic at all: every record of
a successful run has `match_type` `"exact"` or `"fuzzy"`, never
`"skipped"`.  An edit whose `old_text` equals its `new_text` and occurs in
the document is applied as an ordinary exact match, and an edit whose
`new_text` is present while its `old_text` is absent is fuzzy-matched or
fails — it is not skipped. -/
theorem apply_edits_no_skipped (content : PyStr) (edits : List EditOperation)
    (opts : EditOptions) (c : PyStr) (out : List MatchRecord)
    (h : apply_edits content edits opts = .ok c out) :
    ∀ r ∈ out, r.matchType = "exact" ∨ r.matchType = "fuzzy" := by
  unfold apply_edits at h
  exact applyEditsGo_ok_records opts edits _ _ _ _ _ _ _ h (by simp)

/-- Counterexample for C3: the edit `("a", "a")` (equal `old_text` and
`new_text`) applied to the document `"a"` is recorded as an exact match,
not as `"skipped"`; the document is unchanged only because the exact
replacement reproduces it. -/
theorem apply_edits_no_skipped_cex :
    apply_edits (str "a") [⟨str "a", str "a"⟩] defaultOptions =
      .ok (str "a") [.exact 0 1 0 1] ∧
    (MatchRecord.exact 0 1 0 1).matchType = "exact" ∧
    ¬ (MatchRecord.exact 0 1 0 1).matchType = "skipped" := by
  refine ⟨by with_unfolding_all decide, rfl, by decide⟩

/-- Witness for the amended C3. -/
theorem apply_edits_no_skipped_witness :
    apply_edits (str "a") [⟨(str "a" : PyStr), (str "a" : PyStr)⟩] defaultOptions =
      .ok (str "a") [.exact 0 1 0 1] ∧
    ∀ r ∈ ([.exact 0 1 0 1] : List MatchRecord),
      r.matchType = "exact" ∨ r.matchType = "fuzzy" :=
  ⟨by with_unfolding_all decide,
    apply_edits_no_skipped (str "a") [⟨str "a", str "a"⟩] defaultOptions
      (str "a") [.exact 0 1 0 1] (by with_unfolding_all decide)⟩

/-- C4 (code bug): evaluation of `apply_edits` at the failing input.  Both
edits fuzzy-match at distinct, non-overlapping anchors, and one record per
edit is produced in input order — but because the splice position adds the
cumulative `line_offset` to a line index that was already found in the
*current* line array, the second edit is spliced one line too high: the
anchor text `"EEE"` survives in the output while the unrelated line
`"CCC"` is destroyed.  A correct splice would produce
`"Z\nCCC\nW\nFFF"`. -/
theorem apply_edits_offset_misplaces_second_edit :
    apply_edits (str "AAA xx\nBBB\nCCC\nDDD yy\nEEE\nFFF")
        [⟨str "AAA\nBBB", str "Z"⟩, ⟨str "DDD\nEEE", str "W"⟩]
        defaultOptions =
      .ok (str "Z\nW\nEEE\nFFF")
        [.fuzzy 0 (81 / 100) 0 2, .fuzzy 1 (81 / 100) 1 2] ∧
    substrB (str "EEE") (str "Z\nW\nEEE\nFFF") = true ∧
    substrB (str "CCC") (str "Z\nW\nEEE\nFFF") = false := by
  refine ⟨by with_unfolding_all decide, by decide, by decide⟩

/-- C7: applying, with default options, the single edit
`("if condition:\n        return True", "if new_condition:\n    return False")`
to the document `"    if condition:\n        return True"` produces
exactly `"    if new_condition:\n        return False"` — the four-space
base indentation and the eight-space body indentation of the original are
preserved. -/
theorem apply_edits_indentation_end_to_end :
    apply_edits (str "    if condition:\n        return True")
        [⟨str "if condition:\n        return True",
          str "if new_condition:\n    return False"⟩]
        defaultOptions =
      .ok (str "    if new_condition:\n        return False")
        [.exact 0 1 0 2] := by
  with_unfolding_all decide

theorem no_nl_takeWhile {l : PyStr} (p : Char → Bool)
    (h : ('\n' : Char) ∉ l) : ('\n' : Char) ∉ l.takeWhile p :=
  fun hm => h ((List.takeWhile_sublist p).subset hm)

theorem no_nl_dropWhile {l : PyStr} (p : Char → Bool)
    (h : ('\n' : Char) ∉ l) : ('\n' : Char) ∉ l.dropWhile p :=
  fun hm => h ((List.dropWhile_sublist p).subset hm)

theorem no_nl_indentation {l : PyStr} (h : ('\n' : Char) ∉ l) :
    ('\n' : Char) ∉ get_line_indentation l :=
  no_nl_takeWhile isPyWs h

theorem no_nl_lstrip {l : PyStr} (h : ('\n' : Char) ∉ l) :
    ('\n' : Char) ∉ pyLStrip l :=
  no_nl_dropWhile isPyWs h

theorem no_nl_append {a b : PyStr} (ha : ('\n' : Char) ∉ a)
    (hb : ('\n' : Char) ∉ b) : ('\n' : Char) ∉ a ++ b := by
  intro hm
  rcases List.mem_append.mp hm with h | h
  · exact ha h
  · exact hb h

theorem no_nl_strRepeat {s : PyStr} (k : Int) (h : ('\n' : Char) ∉ s) :
    ('\n' : Char) ∉ strRepeat s k := by
  intro hm
  rw [strRepeat, List.mem_flatten] at hm
  obtain ⟨l, hl, hmem⟩ := hm
  rw [(List.mem_replicate.mp hl).2] at hmem
  exact h hmem

theorem no_nl_replicate_space (m : Nat) :
    ('\n' : Char) ∉ List.replicate m ' ' := by
  intro hm
  exact absurd (List.mem_replicate.mp hm).2 (by decide)

theorem no_nl_detect_unit (t : PyStr) :
    ('\n' : Char) ∉ (detect_indentation t).1 := by
  simp only [detect_indentation]
  split
  · split
    · exact no_nl_replicate_space _
    · exact no_nl_replicate_space 4
  · split
    · intro hm
      exact absurd (List.mem_singleton.mp hm) (by decide)
    · exact no_nl_replicate_space 4

theorem no_nl_getD_of_all {acc : List PyStr} (j : Nat)
    (h : ∀ x ∈ acc, ('\n' : Char) ∉ x) : ('\n' : Char) ∉ acc.getD j [] := by
  rw [List.getD_eq_get?]
  cases hq : acc.get? j with
  | none => simp
  | some a =>
    simp only [Option.getD_some]
    exact h a (List.get?_mem hq)

theorem no_nl_dictGet {m : List (Int × PyStr)} {k : Int} {v : PyStr}
    (hm : ∀ p ∈ m, ('\n' : Char) ∉ p.2) (h : dictGet m k = some v) :
    ('\n' : Char) ∉ v := by
  unfold dictGet at h
  cases hf : m.find? (fun p => p.1 = k) with
  | none => rw [hf] at h; simp at h
  | some p =>
    rw [hf] at h
    simp only [Option.map_some', Option.some.injEq] at h
    rw [← h]
    exact hm p (List.mem_of_find?_eq_some hf)

theorem no_nl_dictInsert {m : List (Int × PyStr)} {k : Int} {v : PyStr}
    (hm : ∀ p ∈ m, ('\n' : Char) ∉ p.2) (hv : ('\n' : Char) ∉ v) :
    ∀ p ∈ dictInsert m k v, ('\n' : Char) ∉ p.2 := by
  intro p hp
  unfold dictInsert at hp
  rcases List.mem_append.mp hp with h | h
  · exact hm p (List.mem_of_mem_filter h)
  · rw [List.mem_singleton.mp h]
    exact hv

theorem dict_fold_no_nl (os : List (Nat × Int)) :
    ∀ (ls : List (Nat × PyStr)) (d0 : List (Int × PyStr)),
      (∀ il ∈ ls, ('\n' : Char) ∉ il.2) →
      (∀ p ∈ d0, ('\n' : Char) ∉ p.2) →
      ∀ p ∈ ls.foldl
          (fun d il =>
            if (pyStrip il.2).isEmpty then d
            else dictInsert d (lookupD os il.1 1) (get_line_indentation il.2))
          d0,
        ('\n' : Char) ∉ p.2 := by
  intro ls
  induction ls with
  | nil =>
    intro d0 _ hd0 p hp
    exact hd0 p hp
  | cons il rest ih =>
    intro d0 hls hd0 p hp
    simp only [List.foldl_cons] at hp
    refine ih _ (fun x hx => hls x (List.mem_cons_of_mem il hx)) ?_ p hp
    by_cases hb : (pyStrip il.2).isEmpty = true
    · rw [if_pos hb]
      exact hd0
    · rw [if_neg hb]
      exact no_nl_dictInsert hd0
        (no_nl_indentation (hls il (List.mem_cons_self il rest)))

theorem dict_fold_default_no_nl (base iu : PyStr) (isz : Nat)
    (hb : ('\n' : Char) ∉ base) (hiu : ('\n' : Char) ∉ iu) :
    ∀ (ls : List Nat) (d0 : List (Int × PyStr)),
      (∀ p ∈ d0, ('\n' : Char) ∉ p.2) →
      ∀ p ∈ ls.foldl
          (fun d (level : Nat) =>
            dictInsert d (level : Int)
              (base ++ strRepeat (strRepeat iu (isz : Int)) ((level : Int) - 1)))
          d0,
        ('\n' : Char) ∉ p.2 := by
  intro ls
  induction ls with
  | nil =>
    intro d0 hd0 p hp
    exact hd0 p hp
  | cons lv rest ih =>
    intro d0 hd0 p hp
    rw [List.foldl_cons] at hp
    exact ih _ (no_nl_dictInsert hd0
      (no_nl_append hb (no_nl_strRepeat _ (no_nl_strRepeat _ hiu)))) p hp

theorem no_nl_pyIndentLine {old_text : PyStr} {im : List (Int × PyStr)}
    (ns : List (Nat × Int)) {bi : PyStr} (i : Nat) {line : PyStr}
    (him : ∀ p ∈ im, ('\n' : Char) ∉ p.2) (hbi : ('\n' : Char) ∉ bi)
    (hline : ('\n' : Char) ∉ line) :
    ('\n' : Char) ∉ pyIndentLine old_text im ns bi i line := by
  unfold pyIndentLine
  cases hg : dictGet im (lookupD ns i 1) with
  | some target =>
    simp only [hg]
    exact no_nl_append (no_nl_dictGet him hg) (no_nl_lstrip hline)
  | none =>
    simp only [hg]
    refine no_nl_append (no_nl_append ?_ (no_nl_strRepeat _
      (no_nl_strRepeat _ (no_nl_detect_unit old_text)))) (no_nl_lstrip hline)
    cases hg2 : dictGet im (dictKeysMax im) with
    | some v =>
      simp only [hg2, Option.getD_some]
      exact no_nl_dictGet him hg2
    | none =>
      simp only [hg2, Option.getD_none]
      exact hbi

theorem pyGo_spec (old_text : PyStr) (im : List (Int × PyStr))
    (ns : List (Nat × Int)) (bi : PyStr)
    (him : ∀ p ∈ im, ('\n' : Char) ∉ p.2) (hbi : ('\n' : Char) ∉ bi) :
    ∀ (rest : List PyStr) (i : Nat),
      (∀ l ∈ rest, ('\n' : Char) ∉ l) →
      (pyGo old_text im ns bi i rest).length = rest.length ∧
      (∀ x ∈ pyGo old_text im ns bi i rest, ('\n' : Char) ∉ x) ∧
      (∀ j l, rest.get? j = some l → (pyStrip l).isEmpty = true →
        (pyGo old_text im ns bi i rest).get? j = some []) := by
  intro rest
  induction rest with
  | nil =>
    intro i _
    refine ⟨rfl, by simp [pyGo], ?_⟩
    intro j l hj
    simp at hj
  | cons line rest2 ih =>
    intro i hrest
    have hline : ('\n' : Char) ∉ line := hrest line (List.mem_cons_self line rest2)
    have hrest2 : ∀ l ∈ rest2, ('\n' : Char) ∉ l :=
      fun l hl => hrest l (List.mem_cons_of_mem line hl)
    obtain ⟨ihlen, ihnl, ihblank⟩ := ih (i + 1) hrest2
    refine ⟨by simp [pyGo, ihlen], ?_, ?_⟩
    · intro x hx
      simp only [pyGo] at hx
      rcases List.mem_cons.mp hx with h | h
      · subst h
        by_cases hb : (pyStrip line).isEmpty = true
        · simp only [if_pos hb]
          simp
        · simp only [if_neg hb]
          exact no_nl_pyIndentLine ns i him hbi hline
      · exact ihnl x h
    · intro j l hj hblank
      cases j with
      | zero =>
        simp only [List.get?_cons_zero, Option.some.injEq] at hj
        subst hj
        simp only [pyGo, List.get?_cons_zero, if_pos hblank]
      | succ j2 =>
        simp only [List.get?_cons_succ] at hj
        simp only [pyGo, List.get?_cons_succ]
        exact ihblank j2 l hj hblank

theorem no_nl_pyBaseIndent (o : PyStr) : ('\n' : Char) ∉ pyBaseIndent o := by
  unfold pyBaseIndent
  cases hol : splitNl o with
  | nil => exact absurd hol (splitNl_ne_nil o)
  | cons m0 ms =>
    simp only [List.head?_cons]
    exact no_nl_indentation (splitNl_no_nl (hol ▸ List.mem_cons_self m0 ms))

theorem pyBuildIndentMap_no_nl (o : PyStr) :
    ∀ p ∈ pyBuildIndentMap o, ('\n' : Char) ∉ p.2 := by
  intro p hp
  simp only [pyBuildIndentMap] at hp
  split at hp
  · refine dict_fold_default_no_nl (pyBaseIndent o) (detect_indentation o).1
      (detect_indentation o).2 (no_nl_pyBaseIndent o) (no_nl_detect_unit o)
      (List.range' 2 8) _ ?_ p hp
    exact no_nl_dictInsert (by simp) (no_nl_pyBaseIndent o)
  · refine dict_fold_no_nl (analyze_indentation_structure (splitNl o))
      (splitNl o).enum [] ?_ (by simp) p hp
    intro il hil
    exact splitNl_no_nl (List.get?_mem (List.mem_enum_iff_get?.mp hil))

theorem preserve_python_blank (o n : PyStr) :
    (splitNl (preserve_python_indentation o n)).length = (splitNl n).length ∧
    (∀ j l, (splitNl n).get? j = some l → (pyStrip l).isEmpty = true →
      (splitNl (preserve_python_indentation o n)).get? j = some []) := by
  obtain ⟨l0, rest, hnl⟩ : ∃ l0 rest, splitNl n = l0 :: rest := by
    cases h : splitNl n with
    | nil => exact absurd h (splitNl_ne_nil n)
    | cons a b => exact ⟨a, b, rfl⟩
  have hl0 : ('\n' : Char) ∉ l0 := splitNl_no_nl (hnl ▸ List.mem_cons_self l0 rest)
  have hrest : ∀ l ∈ rest, ('\n' : Char) ∉ l :=
    fun l hl => splitNl_no_nl (hnl ▸ List.mem_cons_of_mem l0 hl)
  obtain ⟨glen, gnl, gblank⟩ := pyGo_spec o (pyBuildIndentMap o)
    (analyze_indentation_structure (splitNl n)) (pyBaseIndent o)
    (pyBuildIndentMap_no_nl o) (no_nl_pyBaseIndent o) rest 1 hrest
  have hfirst : ('\n' : Char) ∉
      (if (pyStrip l0).isEmpty = true then []
       else pyBaseIndent o ++ pyLStrip l0 : PyStr) := by
    split
    · simp
    · exact no_nl_append (no_nl_pyBaseIndent o) (no_nl_lstrip hl0)
  have heq : preserve_python_indentation o n =
      joinNl ((if (pyStrip l0).isEmpty = true then []
               else pyBaseIndent o ++ pyLStrip l0) ::
        pyGo o (pyBuildIndentMap o)
          (analyze_indentation_structure (splitNl n)) (pyBaseIndent o) 1 rest) := by
    simp only [preserve_python_indentation, hnl]
  have hsplit : splitNl (preserve_python_indentation o n) =
      (if (pyStrip l0).isEmpty = true then []
       else pyBaseIndent o ++ pyLStrip l0) ::
        pyGo o (pyBuildIndentMap o)
          (analyze_indentation_structure (splitNl n)) (pyBaseIndent o) 1 rest := by
    rw [heq]
    refine splitNl_joinNl (by simp) ?_
    intro x hx
    rcases List.mem_cons.mp hx with h | h
    · subst h
      exact hfirst
    · exact gnl x h
  constructor
  · rw [hsplit, List.length_cons, glen, hnl, List.length_cons]
  · intro j l hj hblank
    rw [hsplit]
    rw [hnl] at hj
    cases j with
    | zero =>
      simp only [List.get?_cons_zero, Option.some.injEq] at hj
      subst hj
      simp only [List.get?_cons_zero, if_pos hblank]
    | succ j2 =>
      simp only [List.get?_cons_succ] at hj ⊢
      exact gblank j2 l hj hblank

theorem no_nl_optGetD {acc : List PyStr} (j : Nat)
    (h : ∀ y ∈ acc, ('\n' : Char) ∉ y) : ('\n' : Char) ∉ (acc.get? j).getD [] := by
  cases hq : acc.get? j with
  | none => simp
  | some a =>
    simp only [Option.getD_some]
    exact h a (List.get?_mem hq)

theorem no_nl_genericEstimate (new_lines : List PyStr) {bi iu : PyStr}
    (isz : Nat) {acc : List PyStr} (i : Nat) (line : PyStr)
    (hbi : ('\n' : Char) ∉ bi) (hiu : ('\n' : Char) ∉ iu)
    (hacc : ∀ y ∈ acc, ('\n' : Char) ∉ y) :
    ('\n' : Char) ∉ genericEstimate new_lines bi iu isz acc i line := by
  simp only [genericEstimate]
  split
  · split
    · exact no_nl_append (no_nl_takeWhile _ (no_nl_optGetD _ hacc))
        (no_nl_strRepeat _ hiu)
    · split
      · split
        · exact no_nl_takeWhile _ (no_nl_optGetD _ hacc)
        · exact hbi
      · exact hbi
  · exact hbi

theorem genericIndentMap_no_nl (o : PyStr) :
    ∀ p ∈ genericIndentMap o, ('\n' : Char) ∉ p.2 := by
  intro p hp
  unfold genericIndentMap at hp
  rw [List.mem_filterMap] at hp
  obtain ⟨il, hil, hmap⟩ := hp
  by_cases hb : (pyStrip il.2).isEmpty = true
  · rw [if_pos hb] at hmap
    simp at hmap
  · rw [if_neg hb] at hmap
    simp only [Option.some.injEq] at hmap
    rw [← hmap]
    exact no_nl_indentation
      (splitNl_no_nl (List.get?_mem (List.mem_enum_iff_get?.mp hil)))

theorem genericStep_shape (ol nl2 : List PyStr) (im : List (Nat × PyStr))
    (bi iu : PyStr) (isz : Nat) (acc : List PyStr) (i : Nat) (line : PyStr) :
    ∃ x, genericStep ol nl2 im bi iu isz acc i line = acc ++ [x] ∧
      ((pyStrip line).isEmpty = true → x = []) ∧
      (('\n' : Char) ∉ bi → ('\n' : Char) ∉ iu →
        (∀ p ∈ im, ('\n' : Char) ∉ p.2) →
        (∀ y ∈ acc, ('\n' : Char) ∉ y) →
        ('\n' : Char) ∉ line → ('\n' : Char) ∉ x) := by
  unfold genericStep
  by_cases hb : (pyStrip line).isEmpty = true
  · refine ⟨[], by rw [if_pos hb], fun _ => rfl, fun _ _ _ _ _ => by simp⟩
  · rw [if_neg hb]
    by_cases h0 : i = 0
    · rw [if_pos h0]
      exact ⟨_, rfl, fun hc => absurd hc hb,
        fun hbi _ _ _ hl => no_nl_append hbi (no_nl_lstrip hl)⟩
    · rw [if_neg h0]
      by_cases hmem : i < ol.length ∧ ((im.find? (fun p => p.1 = i)).isSome)
      · rw [if_pos hmem]
        refine ⟨_, rfl, fun hc => absurd hc hb, fun hbi hiu him hacc hl => ?_⟩
        refine no_nl_append ?_ (no_nl_lstrip hl)
        cases hf : im.find? (fun p => p.1 = i) with
        | none => simp [hf]
        | some p =>
          simp only [hf, Option.map_some', Option.getD_some]
          exact him p (List.mem_of_find?_eq_some hf)
      · rw [if_neg hmem]
        exact ⟨_, rfl, fun hc => absurd hc hb,
          fun hbi hiu him hacc hl => no_nl_append
            (no_nl_genericEstimate nl2 isz i line hbi hiu hacc)
            (no_nl_lstrip hl)⟩

theorem genericGo_spec (ol nl2 : List PyStr) (im : List (Nat × PyStr))
    (bi iu : PyStr) (isz : Nat)
    (hbi : ('\n' : Char) ∉ bi) (hiu : ('\n' : Char) ∉ iu)
    (him : ∀ p ∈ im, ('\n' : Char) ∉ p.2) :
    ∀ (rest : List PyStr) (i : Nat) (acc : List PyStr),
      (∀ y ∈ acc, ('\n' : Char) ∉ y) →
      (∀ l ∈ rest, ('\n' : Char) ∉ l) →
      (genericGo ol nl2 im bi iu isz acc i rest).length = acc.length + rest.length ∧
      (∀ y ∈ genericGo ol nl2 im bi iu isz acc i rest, ('\n' : Char) ∉ y) ∧
      (∀ j l, rest.get? j = some l → (pyStrip l).isEmpty = true →
        (genericGo ol nl2 im bi iu isz acc i rest).get? (acc.length + j) = some []) := by
  intro rest
  induction rest with
  | nil =>
    intro i acc hacc _
    refine ⟨by simp [genericGo], fun y hy => hacc y (by simpa [genericGo] using hy), ?_⟩
    intro j l hj
    simp at hj
  | cons line r2 ih =>
    intro i acc hacc hrest
    have hline : ('\n' : Char) ∉ line := hrest line (List.mem_cons_self line r2)
    have hr2 : ∀ l ∈ r2, ('\n' : Char) ∉ l :=
      fun l hl => hrest l (List.mem_cons_of_mem line hl)
    obtain ⟨x, hstep, hblankx, hnlx⟩ := genericStep_shape ol nl2 im bi iu isz acc i line
    have hx : ('\n' : Char) ∉ x := hnlx hbi hiu him hacc hline
    have hacc2 : ∀ y ∈ acc ++ [x], ('\n' : Char) ∉ y := by
      intro y hy
      rcases List.mem_append.mp hy with h | h
      · exact hacc y h
      · rw [List.mem_singleton.mp h]
        exact hx
    obtain ⟨ihlen, ihnl, ihblank⟩ := ih (i + 1) (acc ++ [x]) hacc2 hr2
    have hgo : genericGo ol nl2 im bi iu isz acc i (line :: r2) =
        genericGo ol nl2 im bi iu isz (acc ++ [x]) (i + 1) r2 := by
      simp only [genericGo, hstep]
    refine ⟨?_, ?_, ?_⟩
    · rw [hgo, ihlen]
      simp only [List.length_append, List.length_singleton, List.length_cons,
        List.length_nil]
      omega
    · rw [hgo]
      exact ihnl
    · intro j l hj hblank
      rw [hgo]
      cases j with
      | zero =>
        simp only [List.get?_cons_zero, Option.some.injEq] at hj
        subst hj
        have hx0 : x = [] := hblankx hblank
        subst hx0
        -- position acc.length is the last element of acc ++ [[]]
        have hpre : ∀ t2 j2 acc2, ∃ t3,
            genericGo ol nl2 im bi iu isz acc2 j2 t2 = acc2 ++ t3 := by
          intro t2
          induction t2 with
          | nil => exact fun j2 acc2 => ⟨[], by simp [genericGo]⟩
          | cons a b ihp =>
            intro j2 acc2
            obtain ⟨y, hy, _, _⟩ := genericStep_shape ol nl2 im bi iu isz acc2 j2 a
            obtain ⟨t3, ht3⟩ := ihp (j2 + 1) (acc2 ++ [y])
            refine ⟨[y] ++ t3, ?_⟩
            simp only [genericGo, hy, ht3, List.append_assoc]
        obtain ⟨t3, ht3⟩ := hpre r2 (i + 1) (acc ++ [[]])
        rw [ht3, Nat.add_zero, List.append_assoc,
          List.get?_append_right (le_refl acc.length)]
        simp
      | succ j2 =>
        simp only [List.get?_cons_succ] at hj
        have := ihblank j2 l hj hblank
        rw [List.length_append, List.length_singleton] at this
        have harith : acc.length + 1 + j2 = acc.length + (j2 + 1) := by omega
        rw [harith] at this
        exact this

theorem generic_preserve_blank (o n : PyStr) :
    (splitNl (generic_preserve o n)).length = (splitNl n).length ∧
    (∀ j l, (splitNl n).get? j = some l → (pyStrip l).isEmpty = true →
      (splitNl (generic_preserve o n)).get? j = some []) := by
  have hlines : ∀ l ∈ splitNl n, ('\n' : Char) ∉ l := fun l hl => splitNl_no_nl hl
  obtain ⟨glen, gnl, gblank⟩ := genericGo_spec (splitNl o) (splitNl n)
    (genericIndentMap o) (pyBaseIndent o) (detect_indentation o).1
    (detect_indentation o).2 (no_nl_pyBaseIndent o) (no_nl_detect_unit o)
    (genericIndentMap_no_nl o) (splitNl n) 0 [] (by simp) hlines
  have hne : genericGo (splitNl o) (splitNl n) (genericIndentMap o)
      (pyBaseIndent o) (detect_indentation o).1 (detect_indentation o).2
      [] 0 (splitNl n) ≠ [] := by
    intro hcon
    have h2 := glen
    rw [hcon] at h2
    simp only [List.length_nil, Nat.zero_add] at h2
    exact splitNl_ne_nil n (List.length_eq_zero.mp h2.symm)
  have hsplit : splitNl (generic_preserve o n) =
      genericGo (splitNl o) (splitNl n) (genericIndentMap o)
        (pyBaseIndent o) (detect_indentation o).1 (detect_indentation o).2
        [] 0 (splitNl n) := by
    unfold generic_preserve
    exact splitNl_joinNl hne gnl
  constructor
  · rw [hsplit, glen]
    simp
  · intro j l hj hblank
    rw [hsplit]
    have := gblank j l hj hblank
    simpa using this

/-- C8 (amended): when `preserve_indentation` dispatches to the
block-structured (Python) or generic strategy — that is, whenever the
markdown-list detector does not fire — the returned text has exactly one
line per line of `new_text`, and every blank line of `new_text` is emitted
as an empty string with no leading or trailing whitespace.  The
markdown-list strategy violates this (see the counterexample): it emits
blank lines carrying indentation. -/
theorem preserve_indentation_blank_lines (o n : PyStr)
    (hmd : is_markdown_bullets o n = false) :
    (splitNl (preserve_indentation o n)).length = (splitNl n).length ∧
    (∀ j l, (splitNl n).get? j = some l → (pyStrip l).isEmpty = true →
      (splitNl (preserve_indentation o n)).get? j = some []) := by
  have hoe : (splitNl o).isEmpty = false := by
    cases h : splitNl o with
    | nil => exact absurd h (splitNl_ne_nil o)
    | cons a b => rfl
  have hnee : (splitNl n).isEmpty = false := by
    cases h : splitNl n with
    | nil => exact absurd h (splitNl_ne_nil n)
    | cons a b => rfl
  have hcond : ¬ ((splitNl o).isEmpty = true ∨ (splitNl n).isEmpty = true) := by
    rw [hoe, hnee]
    simp
  have hpi : preserve_indentation o n =
      (if (pythonPatterns.any fun p => substrB p o) = true ∧
          (pythonPatterns.any fun p => substrB p n) = true then
        preserve_python_indentation o n
      else generic_preserve o n) := by
    simp only [preserve_indentation, if_neg hcond, hmd, Bool.false_eq_true,
      if_false]
  rw [hpi]
  split
  · exact preserve_python_blank o n
  · exact generic_preserve_blank o n

/-- Counterexample for C8: with the markdown-list strategy
(`old_text = "  - a\n  - b"`, `new_text = "- a\n\n- b"`), the blank middle
line of `new_text` is emitted as two spaces, not as an empty string. -/
theorem preserve_indentation_blank_lines_cex :
    is_markdown_bullets (str "  - a\n  - b") (str "- a\n\n- b") = true ∧
    (splitNl (str "- a\n\n- b")).get? 1 = some [] ∧
    (splitNl (preserve_indentation (str "  - a\n  - b") (str "- a\n\n- b"))).get? 1
      = some [ ' ', ' ' ] := by
  refine ⟨by decide, by decide, by decide⟩

/-- Witness for the amended C8: a generic-strategy edit with a blank line. -/
theorem preserve_indentation_blank_lines_witness :
    is_markdown_bullets (str "a\nb") (str "x\n\ny") = false ∧
    (splitNl (str "x\n\ny")).get? 1 = some [] ∧
    (pyStrip ([] : PyStr)).isEmpty = true ∧
    (splitNl (preserve_indentation (str "a\nb") (str "x\n\ny"))).get? 1 = some [] :=
  ⟨by decide, by decide, by decide,
    (preserve_indentation_blank_lines (str "a\nb") (str "x\n\ny") (by decide)).2
      1 [] (by decide) (by decide)⟩
